import Mathlib

/-!
Verification of the inspAI mobile core (ethASL repository).

Shallow embedding of the retrieval-augmented chat engine found in
`mobile/app/inspection/[id].tsx` and the document ingestion screens
`mobile/app/(tabs)/index.tsx` / `explore.tsx`.

Text is modelled as `List Char` (`Str`).  The JavaScript regex-based
string pipeline of `cleanResponse` is embedded as structurally
recursive scanners with the exact left-to-right, no-rescan semantics of
`String.prototype.replace` with a global regex.
-/

/-- Text is a list of characters. -/
abbrev Str := List Char

/-- The whitespace characters removed by JavaScript `String.prototype.trim`
(ASCII subset; the source strings contain no exotic Unicode spaces). -/
def isWS (c : Char) : Bool :=
  c = ' ' || c = '\t' || c = '\n' || c = '\r' || c = '\x0b' || c = '\x0c'

/-- JavaScript `s.trim()`: strip whitespace from both ends. -/
def trimChars (l : Str) : Str :=
  ((l.dropWhile isWS).reverse.dropWhile isWS).reverse

/-- Case-insensitive character comparison, for the `i` regex flag. -/
def charEqCI (a b : Char) : Bool := a.toLower = b.toLower

/-- Does `pat` match (case-insensitively) at the head of the text? -/
def startsWithCI : Str → Str → Bool
  | [], _ => true
  | _ :: _, [] => false
  | p :: ps, c :: cs => charEqCI p c && startsWithCI ps cs

/-- Does `pat` occur (case-insensitively) anywhere in the text? -/
def occursCI (pat : Str) : Str → Bool
  | [] => startsWithCI pat []
  | c :: cs => startsWithCI pat (c :: cs) || occursCI pat cs

/-- The reasoning-block open delimiter of `cleanResponse`. -/
def thinkOpen : Str := "<think>".toList

/-- The reasoning-block close delimiter of `cleanResponse`. -/
def thinkClose : Str := "</think>".toList

/-- Worker for `removeAllCI`: `k` pending characters of an already matched
pattern occurrence still to be consumed.  Mirrors
`text.replace(/pat/gi, "")`: scan left to right, and on a match skip the
matched span without rescanning it. -/
def removeAllGo (pat : Str) : Nat → Str → Str
  | _ + 1, [] => []
  | k + 1, _ :: cs => removeAllGo pat k cs
  | 0, [] => []
  | 0, c :: cs =>
    if startsWithCI pat (c :: cs) then removeAllGo pat (pat.length - 1) cs
    else c :: removeAllGo pat 0 cs

/-- `text.replace(/pat/gi, "")` for a literal pattern `pat`. -/
def removeAllCI (pat : Str) (l : Str) : Str := removeAllGo pat 0 l

/-- Worker for `removeThinkBlocks`, a single left-to-right scan.
`k` counts characters still to be blindly consumed; `searching` is true
while consuming a block body up to its `</think>`.  A block starts only
at an occurrence of `<think>` that has a `</think>` somewhere after it
(the regex `/<think>[\s\S]*?<\/think>/gi` fails at an open tag with no
close and moves on by one character). -/
def rbGo : Nat → Bool → Str → Str
  | _ + 1, _, [] => []
  | k + 1, searching, _ :: cs => rbGo k searching cs
  | 0, _, [] => []
  | 0, true, c :: cs =>
    if startsWithCI thinkClose (c :: cs) then rbGo 7 false cs
    else rbGo 0 true cs
  | 0, false, c :: cs =>
    if startsWithCI thinkOpen (c :: cs) && occursCI thinkClose (List.drop 6 cs) then
      rbGo 6 true cs
    else c :: rbGo 0 false cs

/-- `text.replace(/<think>[\s\S]*?<\/think>/gi, "")`. -/
def removeThinkBlocks (l : Str) : Str := rbGo 0 false l

/-- After a `<|`, the number of characters through the first following
`|>`, or `none` if a line terminator (which `.` does not match) or the
end of the text comes first.  Mirrors the lazy `.*?` of `/<\|.*?\|>/`. -/
def tokenSpan : Str → Option Nat
  | [] => none
  | c :: cs =>
    if c = '|' ∧ cs.head? = some '>' then some 2
    else if c = '\n' ∨ c = '\r' then none
    else (tokenSpan cs).map (· + 1)

/-- Worker for `removeSpecialTokens`; `k` pending characters of a matched
token still to be consumed. -/
def rtGo : Nat → Str → Str
  | _ + 1, [] => []
  | k + 1, _ :: cs => rtGo k cs
  | 0, [] => []
  | 0, c :: cs =>
    if c = '<' ∧ cs.head? = some '|' then
      match tokenSpan (List.drop 1 cs) with
      | some n => rtGo (1 + n) cs
      | none => c :: rtGo 0 cs
    else c :: rtGo 0 cs

/-- `text.replace(/<\|.*?\|>/gi, "")`: remove control-token markers. -/
def removeSpecialTokens (l : Str) : Str := rtGo 0 l

/-- Length of the leading run of newline characters. -/
def nlRun : Str → Nat
  | [] => 0
  | c :: cs => if c = '\n' then nlRun cs + 1 else 0

/-- Worker for `collapseNewlines`; `k` newline characters of a matched run
still to be consumed (the run was replaced by two newlines already). -/
def cnGo : Nat → Str → Str
  | _ + 1, [] => []
  | k + 1, _ :: cs => cnGo k cs
  | 0, [] => []
  | 0, c :: cs =>
    if c = '\n' ∧ 2 ≤ nlRun cs then '\n' :: '\n' :: cnGo (nlRun cs) cs
    else c :: cnGo 0 cs

/-- `text.replace(/\n{3,}/g, "\n\n")`. -/
def collapseNewlines (l : Str) : Str := cnGo 0 l

/-- Prefix of the text before the first (case-insensitive) occurrence of
`pat`, or `none` if `pat` does not occur. -/
def takeUntilCI (pat : Str) : Str → Option Str
  | [] => none
  | c :: cs =>
    if startsWithCI pat (c :: cs) then some []
    else (takeUntilCI pat cs).map (c :: ·)

/-- Group 1 of `text.match(/<think>([\s\S]*?)<\/think>/i)`: the body of
the first well-formed reasoning block. -/
def firstThinkBlock : Str → Option Str
  | [] => none
  | c :: cs =>
    if startsWithCI thinkOpen (c :: cs) then
      match takeUntilCI thinkClose (List.drop 6 cs) with
      | some inner => some inner
      | none => firstThinkBlock cs
    else firstThinkBlock cs

/-- The result of `cleanResponse`: the sanitized display text (`clean`)
and the extracted reasoning. -/
structure CleanResult where
  clean : Str
  reasoning : Str
deriving DecidableEq, Repr

/-- `cleanResponse` from `mobile/app/inspection/[id].tsx`: extract the
first well-formed reasoning block, then strip complete blocks, orphan
open tags, orphan close tags and control tokens, collapse runs of three
or more newlines, and trim. -/
def cleanResponse (text : Str) : CleanResult :=
  { reasoning :=
      match firstThinkBlock text with
      | some inner => trimChars inner
      | none => []
    clean :=
      trimChars (collapseNewlines (removeSpecialTokens
        (removeAllCI thinkClose (removeAllCI thinkOpen (removeThinkBlocks text))))) }

/-- Marker predicate used to state when re-sanitizing is the identity:
the text holds a control-token occurrence `<|...|>` that the token
regex would match. -/
def hasSpecialToken : Str → Bool
  | [] => false
  | c :: cs =>
    (decide (c = '<' ∧ cs.head? = some '|') && (tokenSpan (List.drop 1 cs)).isSome) ||
      hasSpecialToken cs

/-- Marker predicate: the text holds a run of three or more newlines. -/
def hasTripleNewline : Str → Bool
  | [] => false
  | c :: cs => decide (c = '\n' ∧ 2 ≤ nlRun cs) || hasTripleNewline cs

/-- A suffix-trim helper: strip trailing whitespace only. -/
def trimEnd (l : Str) : Str := (l.reverse.dropWhile isWS).reverse

/-! ## Chunker (`chunkText` in `mobile/app/(tabs)/index.tsx` and `explore.tsx`) -/

/-- The sentence delimiters of `text.split(/[.!?]+/)`. -/
def isSentenceDelim (c : Char) : Bool := c = '.' || c = '!' || c = '?'

/-- `text.split` on single delimiter characters.  JavaScript splits on
runs `[.!?]+`; splitting on single characters instead inserts extra
empty pieces inside runs, which the subsequent
`filter(s => s.trim())` removes, so `sentencesOf` agrees with the
source. -/
def splitDelims : Str → List Str
  | [] => [[]]
  | c :: cs =>
    match splitDelims cs, isSentenceDelim c with
    | ss, true => [] :: ss
    | [], false => []
    | s :: ss, false => (c :: s) :: ss

/-- `text.split(/[.!?]+/).filter(s => s.trim())`. -/
def sentencesOf (text : Str) : List Str :=
  (splitDelims text).filter fun s => !(trimChars s).isEmpty

/-- The separator `". "` the chunker re-joins accumulated sentences with. -/
def sepDot : Str := ". ".toList

/-- The sentence loop of `chunkText`: accumulate sentences in
`cur`, flush the trimmed buffer when the next sentence would overflow
`chunkSize` (a sentence entering an empty buffer is never split, however
long). -/
def chunkGo (chunkSize : Nat) : List Str → Str → List Str
  | [], cur => if cur.isEmpty then [] else [trimChars cur]
  | s :: rest, cur =>
    if chunkSize < cur.length + s.length ∧ ¬cur.isEmpty then
      trimChars cur :: chunkGo chunkSize rest s
    else
      chunkGo chunkSize rest (cur ++ (if cur.isEmpty then [] else sepDot) ++ trimChars s)

/-- `chunkText(text, chunkSize)` (the source default is `chunkSize = 500`). -/
def chunkText (text : Str) (chunkSize : Nat) : List Str :=
  chunkGo chunkSize (sentencesOf text) []

/-- Joining chunks back with the `". "` separator (the claim's re-joining
operation). -/
def joinSepDot : List Str → Str
  | [] => []
  | [c] => c
  | c :: cs => c ++ sepDot ++ joinSepDot cs

/-- Flattening of `ts` where every element is preceded by `". "`; the
shape of the chunker's accumulation buffer. -/
def sepJoin (ts : List Str) : Str := (ts.map fun t => sepDot ++ t).flatten

/-! ## Retrieval (`cosineSimilarity`, `retrieveRelevantContext` in
`mobile/app/inspection/[id].tsx`)

Vectors are embedded as lists of real numbers; `Math.sqrt` is
`Real.sqrt` and the numeric literals `0.3`, `0.5` are the corresponding
rationals. -/

/-- The summation loop of `cosineSimilarity`: `Σ a[i]*b[i]`.  The source
iterates `i < a.length` and is only reached when the lengths agree, where
the loop and this zip-style recursion coincide (`dotProduct a a` is the
`normA` accumulator, `dotProduct b b` the `normB` one). -/
def dotProduct : List ℝ → List ℝ → ℝ
  | a :: as, b :: bs => a * b + dotProduct as bs
  | _, _ => 0

/-- `cosineSimilarity(a, b)` from `mobile/app/inspection/[id].tsx`:
returns 0 on a length mismatch, else
`dot / (Math.sqrt(normA) * Math.sqrt(normB) || 1)` — the JavaScript
`|| 1` turns a zero denominator into 1. -/
noncomputable def cosineSimilarity (a b : List ℝ) : ℝ :=
  if a.length ≠ b.length then 0
  else
    dotProduct a b /
      (if Real.sqrt (dotProduct a a) * Real.sqrt (dotProduct b b) = 0 then 1
       else Real.sqrt (dotProduct a a) * Real.sqrt (dotProduct b b))

/-- A ranked retrieval result (`type Source` in the source). -/
structure Source where
  docName : Str
  chunk : Str
  score : ℝ

/-- A persisted corpus document (`type StoredDocument`). -/
structure StoredDocument where
  id : Str
  name : Str
  chunks : List Str
  embeddings : List (List ℝ)
  createdAt : Str

/-- The descending-score ordering used to model
`scoredChunks.sort((a, b) => b.score - a.score)`. -/
def scoreGE (a b : Source) : Prop := b.score ≤ a.score

noncomputable instance : DecidableRel scoreGE := fun a b => Real.decidableLE b.score a.score

instance : IsTotal Source scoreGE := ⟨fun a b => le_total b.score a.score⟩

instance : IsTrans Source scoreGE := ⟨fun _ _ _ hab hbc => le_trans hbc hab⟩

/-- `scoredChunks.sort((a, b) => b.score - a.score)`: JavaScript
`Array.prototype.sort` is stable, and a stable sort under this comparator
is exactly insertion sort by non-increasing score (ties keep corpus
order). -/
noncomputable def sortScored (l : List Source) : List Source := List.insertionSort scoreGE l

/-- The scoring double loop of `retrieveRelevantContext`: one `Source`
per chunk of every document, in corpus order.  `doc.embeddings[i]` is read
through `getD` (the store keeps `len(chunks) == len(embeddings)`). -/
noncomputable def scoreChunks (qe : List ℝ) (docs : List StoredDocument) : List Source :=
  docs.flatMap fun doc =>
    (List.range doc.chunks.length).map fun i =>
      { docName := doc.name
        chunk := doc.chunks.getD i []
        score := cosineSimilarity qe (doc.embeddings.getD i []) }

/-- The outcome of retrieval: a context prompt block and the sources. -/
structure RagResult where
  context : Str
  sources : List Source

/-- One provenance line of the context block. -/
def sourceLine (c : Source) : Str :=
  "[From ".toList ++ c.docName ++ "]: ".toList ++ c.chunk

/-- The context block: provenance lines joined with blank lines. -/
def contextOf (l : List Source) : Str :=
  List.intercalate "\n\n".toList (l.map sourceLine)

/-- `scoredChunks.sort(...).slice(0, 3).filter(c => c.score > 0.3)`. -/
noncomputable def topChunksOf (qe : List ℝ) (docs : List StoredDocument) : List Source :=
  ((sortScored (scoreChunks qe docs)).take 3).filter fun c => decide ((0.3 : ℝ) < c.score)

/-- `retrieveRelevantContext` from `mobile/app/inspection/[id].tsx`.
`textModelLoaded` is the `!textModel` guard; `embedOutcome` the outcome of
`textModel.embed` (an exception degrades to an empty result via the
`catch`).  When the threshold filter empties the top 3, the top 2
unfiltered scored chunks are returned as a fallback. -/
noncomputable def retrieveRelevantContext (textModelLoaded : Bool)
    (embedOutcome : Except Unit (List ℝ)) (docs : List StoredDocument) : RagResult :=
  if ¬textModelLoaded ∨ docs.isEmpty then ⟨[], []⟩
  else
    match embedOutcome with
    | .error _ => ⟨[], []⟩
    | .ok qe =>
      let topChunks := topChunksOf qe docs
      if topChunks.isEmpty then
        let fallbackChunks := (sortScored (scoreChunks qe docs)).take 2
        if 0 < fallbackChunks.length then ⟨contextOf fallbackChunks, fallbackChunks⟩
        else ⟨[], []⟩
      else ⟨contextOf topChunks, topChunks⟩

/-! ## Tool dispatch and conversation (`handleToolCall`, `generateResponse`,
`send` in `mobile/app/inspection/[id].tsx`) -/

/-- An inspection report (`type Report`).  `severity` is the string
rendering `String(args.severity || "N/A")` of the numeric argument. -/
structure Report where
  id : Str
  date : Str
  time : Str
  severity : Str
  summary : Str
  damageDescription : Str
  recommendations : Str
  images : List Str
  policyReferences : List Str

/-- The arguments of a `generate_report` tool call (`call.arguments || {}`;
absent fields are `none`). -/
structure ToolArgs where
  severity : Option Str := none
  summary : Option Str := none
  damage_description : Option Str := none
  recommendations : Option Str := none

/-- A structured tool call of the completion result. -/
structure FunctionCall where
  name : Str
  arguments : ToolArgs

/-- JavaScript `v || d`: the default replaces an absent or falsy (empty)
value. -/
def orDefaultStr (v : Option Str) (d : Str) : Str :=
  match v with
  | some s => if s.isEmpty then d else s
  | none => d

/-- A chat message (`type Message`). -/
structure ChatMsg where
  id : Str
  text : Str
  isUser : Bool
  image : Option Str := none
  sources : Option (List Source) := none
  isSearching : Option Bool := none
  reasoning : Option Str := none
  pdfUri : Option Str := none
  report : Option Report := none

/-- `messages.filter(m => m.image).map(m => m.image!)` (an empty string is
falsy in JavaScript). -/
def imagesOf (messages : List ChatMsg) : List Str :=
  messages.filterMap fun m =>
    match m.image with
    | some u => if u.isEmpty then none else some u
    | none => none

/-- The inner `forEach` collecting policy references: membership is tested
against the bare 100-character excerpt while the pushed entry carries a
trailing `"..."`, exactly as in the source. -/
def pushRefs (acc : List Str) (ss : List Source) : List Str :=
  ss.foldl
    (fun acc s =>
      if acc.contains (s.chunk.take 100) then acc
      else acc ++ [s.chunk.take 100 ++ "...".toList])
    acc

/-- `policyRefs` accumulated over every message's attached sources. -/
def policyRefsOf (messages : List ChatMsg) : List Str :=
  messages.foldl
    (fun acc m =>
      match m.sources with
      | some ss => pushRefs acc ss
      | none => acc)
    []

/-- The `Report` object `handleToolCall` constructs; `nowMs`, `nowDate`,
`nowTime` stand for `Date.now()` and its locale renderings. -/
def buildReport (args : ToolArgs) (messages : List ChatMsg)
    (nowMs nowDate nowTime : Str) : Report :=
  { id := "RPT-".toList ++ nowMs
    date := nowDate
    time := nowTime
    severity := orDefaultStr args.severity "N/A".toList
    summary := orDefaultStr args.summary "Inspection completed.".toList
    damageDescription := orDefaultStr args.damage_description "See chat history.".toList
    recommendations := orDefaultStr args.recommendations "Submit for review.".toList
    images := imagesOf messages
    policyReferences := policyRefsOf messages }

/-- The value `handleToolCall` resolves with when a report was generated. -/
structure ToolCallResult where
  response : Str
  report : Report
  pdfUri : Option Str

/-- Side effects performed while dispatching a tool call: one
`generatePdfFromReport` invocation (the artifact) and one `setReport`
per created report. -/
inductive ToolEffect where
  | builtPdf (r : Report)
  | setReport (r : Report)

/-- Is the effect an artifact build? -/
def isBuildEffect : ToolEffect → Bool
  | .builtPdf _ => true
  | .setReport _ => false

/-- The tool name recognized by the dispatcher. -/
def generateReportName : Str := "generate_report".toList

/-- `handleToolCall(functionCalls)` from `mobile/app/inspection/[id].tsx`:
iterate the calls, dispatch the first `generate_report` (returning from
inside the loop), ignore the rest.  `pdfOutcome` is the value
`generatePdfFromReport` resolves with.  The effect trace records the side
effects performed. -/
def handleToolCall : List FunctionCall → List ChatMsg → Str → Str → Str → Option Str →
    Option ToolCallResult × List ToolEffect
  | [], _, _, _, _, _ => (none, [])
  | call :: rest, messages, nowMs, nowDate, nowTime, pdfOutcome =>
    if call.name = generateReportName then
      let newReport := buildReport call.arguments messages nowMs nowDate nowTime
      (some { response := "Report generated! Tap to view or share the PDF.".toList
              report := newReport
              pdfUri := pdfOutcome },
       [ToolEffect.builtPdf newReport, ToolEffect.setReport newReport])
    else handleToolCall rest messages nowMs nowDate nowTime pdfOutcome

/-- A prompt-history entry (`CactusMessage`). -/
structure CactusMsg where
  role : Str
  content : Str

/-- The completion result of the inference engine's `complete`. -/
structure CompleteResult where
  response : Str
  functionCalls : List FunctionCall

/-- The state owned by the inspection screen that the claims concern:
the visible message list, the input field, the in-flight flag, the prompt
history ref, the corpus ref and the current report. -/
structure ChatState where
  messages : List ChatMsg
  input : Str
  isGenerating : Bool
  chatHistory : List CactusMsg
  documents : List StoredDocument
  report : Option Report

/-- The per-turn oracle for the external collaborators: model
availability, the embedder outcome, the completion outcome, the streamed
text, the PDF renderer outcome, and the identifiers drawn from the
clock. -/
structure GenEnv where
  visionLoaded : Bool
  textLoaded : Bool
  embedOutcome : Except Unit (List ℝ)
  completeOutcome : Except Str CompleteResult
  streamedText : Str
  pdfOutcome : Option Str
  userMsgId : Str
  thinkingId : Str
  nowMs : Str
  nowDate : Str
  nowTime : Str

/-- What `generateResponse` resolves with. -/
structure GenReturn where
  response : Str
  sources : List Source
  reasoning : Str

/-- `generateResponse` from `mobile/app/inspection/[id].tsx`, collapsed to
its final state transition (prompt assembly and per-token streaming only
feed the external engine and the provisional message text, which the
caller overwrites).  The `catch` turns a `complete` exception into an
inline error response without touching the history. -/
noncomputable def generateResponse (text : Str) (imageUri : Option Str)
    (messageId : Option Str) (env : GenEnv) (st : ChatState) : ChatState × GenReturn :=
  let modelLoaded := if imageUri.isSome then env.visionLoaded else env.textLoaded
  if ¬modelLoaded then (st, ⟨"Model not loaded.".toList, [], []⟩)
  else
    let rag :=
      if imageUri = none ∧ env.textLoaded then
        retrieveRelevantContext env.textLoaded env.embedOutcome st.documents
      else ⟨[], []⟩
    match env.completeOutcome with
    | .error e =>
      (st, ⟨"Error: ".toList ++ (if e.isEmpty then "Generation failed".toList else e), [], []⟩)
    | .ok result =>
      let tool :=
        if imageUri = none ∧ ¬result.functionCalls.isEmpty then
          handleToolCall result.functionCalls st.messages env.nowMs env.nowDate env.nowTime
            env.pdfOutcome
        else (none, [])
      match tool with
      | (some toolResult, _) =>
        ({ st with
            chatHistory := st.chatHistory ++
              [⟨"user".toList, text⟩, ⟨"assistant".toList, toolResult.response⟩]
            messages :=
              if messageId.isSome ∧ toolResult.pdfUri.isSome then
                st.messages.map fun m =>
                  if some m.id = messageId then
                    { m with
                        text := toolResult.response
                        pdfUri := toolResult.pdfUri
                        report := some toolResult.report }
                  else m
              else st.messages
            report := some toolResult.report },
         ⟨toolResult.response, rag.sources, []⟩)
      | (none, _) =>
        let responseText :=
          if ¬result.response.isEmpty then result.response
          else if ¬env.streamedText.isEmpty then env.streamedText
          else "No response".toList
        let cr := cleanResponse responseText
        let st' :=
          if imageUri = none then
            { st with
                chatHistory := st.chatHistory ++
                  [⟨"user".toList, text⟩, ⟨"assistant".toList, cr.clean⟩] }
          else st
        (st', ⟨cr.clean, rag.sources, cr.reasoning⟩)

/-- The user message `send` appends before generating. -/
def mkUserMsg (msg : Str) (imageUri : Option Str) (env : GenEnv) : ChatMsg :=
  { id := env.userMsgId
    text := if msg.isEmpty then "Photo".toList else msg
    isUser := true
    image := imageUri }

/-- The provisional assistant message at the moment generation starts
(the searching indicator has already been flipped to the generating text
for text turns over a non-empty corpus). -/
def mkThinkingMsg (imageUri : Option Str) (env : GenEnv) (st : ChatState) : ChatMsg :=
  if imageUri = none ∧ ¬st.documents.isEmpty then
    { id := env.thinkingId
      text := "Generating response...".toList
      isUser := false
      isSearching := some false }
  else
    { id := env.thinkingId
      text := "Analyzing...".toList
      isUser := false }

/-- The assistant message as finalized by `send` after a failed
generation: the provisional message with the inline error text. -/
def errAssistantMsg (e : Str) (env : GenEnv) : ChatMsg :=
  { id := env.thinkingId
    text := "Error: ".toList ++ (if e.isEmpty then "Generation failed".toList else e)
    isUser := false
    sources := some []
    isSearching := some false
    reasoning := some [] }

/-- `send` from `mobile/app/inspection/[id].tsx` as one state transition.
The boolean output records whether a generation was started; a busy or
empty turn returns the state unchanged with `false` (drop, not queue). -/
noncomputable def send (text : Option Str) (imageUri : Option Str) (env : GenEnv)
    (st : ChatState) : ChatState × Bool :=
  let msg :=
    match text with
    | some t => if t.isEmpty then trimChars st.input else t
    | none => trimChars st.input
  if (msg.isEmpty ∧ imageUri = none) ∨ st.isGenerating then (st, false)
  else
    let st1 := { st with
      messages := st.messages ++ [mkUserMsg msg imageUri env, mkThinkingMsg imageUri env st]
      input := []
      isGenerating := true }
    let out := generateResponse (if msg.isEmpty then "Analyze this image for damage.".toList else msg)
      imageUri (some env.thinkingId) env st1
    ({ out.1 with
        messages := out.1.messages.map fun m =>
          if m.id = env.thinkingId then
            { m with
                text := out.2.response
                sources := some out.2.sources
                reasoning := some out.2.reasoning
                isSearching := some false }
          else m
        isGenerating := false },
     true)

/-- A one-chunk example corpus: against the query `[1]` its only chunk is
orthogonal and scores 0. -/
noncomputable def zeroDoc : StoredDocument :=
  { id := "d1".toList
    name := "policy".toList
    chunks := ["alpha".toList]
    embeddings := [[0]]
    createdAt := [] }

/-- A one-chunk example corpus: against the query `[5, 0]` its only chunk
scores `25/65 = 5/13 ≈ 0.3846`, between the two candidate thresholds. -/
noncomputable def midDoc : StoredDocument :=
  { id := "d2".toList
    name := "policy".toList
    chunks := ["beta".toList]
    embeddings := [[5, 12]]
    createdAt := [] }

/-! ## Theorems -/

theorem dotProduct_self_nonneg (a : List ℝ) : 0 ≤ dotProduct a a := by
  induction a with
  | nil => simp [dotProduct]
  | cons x as ih => simpa [dotProduct] using add_nonneg (mul_self_nonneg x) ih

theorem dotProduct_eq_zero_left (a : List ℝ) (h : dotProduct a a = 0) :
    ∀ b : List ℝ, dotProduct a b = 0 := by
  induction a with
  | nil => intro b; cases b <;> simp [dotProduct]
  | cons x as ih =>
    have hx : x * x = 0 ∧ dotProduct as as = 0 := by
      rw [dotProduct] at h
      exact (add_eq_zero_iff_of_nonneg (mul_self_nonneg x) (dotProduct_self_nonneg as)).mp h
    intro b
    cases b with
    | nil => simp [dotProduct]
    | cons y bs =>
      rw [dotProduct, mul_self_eq_zero.mp hx.1, ih hx.2 bs, zero_mul, add_zero]

theorem dotProduct_comm (a b : List ℝ) : dotProduct a b = dotProduct b a := by
  induction a generalizing b with
  | nil => cases b <;> simp [dotProduct]
  | cons x as ih => cases b <;> simp [dotProduct, ih, mul_comm]

/-- Claim C8: for equal-length vectors the similarity used by the
retriever equals `dot(a,b) / (‖a‖·‖b‖)`, and a zero-norm vector in the
pair yields score 0 (the JavaScript `|| 1` guard prevents a 0/0). -/
theorem cosineSimilarity_formula (a b : List ℝ) (h : a.length = b.length) :
    cosineSimilarity a b =
      dotProduct a b / (Real.sqrt (dotProduct a a) * Real.sqrt (dotProduct b b)) ∧
    ((Real.sqrt (dotProduct a a) = 0 ∨ Real.sqrt (dotProduct b b) = 0) →
      cosineSimilarity a b = 0) := by
  have hne : ¬a.length ≠ b.length := by simp [h]
  by_cases hden : Real.sqrt (dotProduct a a) * Real.sqrt (dotProduct b b) = 0
  · have hdot : dotProduct a b = 0 := by
      rcases mul_eq_zero.mp hden with hz | hz
      · exact dotProduct_eq_zero_left a
          ((Real.sqrt_eq_zero (dotProduct_self_nonneg a)).mp hz) b
      · rw [dotProduct_comm]
        exact dotProduct_eq_zero_left b
          ((Real.sqrt_eq_zero (dotProduct_self_nonneg b)).mp hz) a
    have hc : cosineSimilarity a b = 0 := by
      rw [cosineSimilarity, if_neg hne, if_pos hden, hdot, zero_div]
    exact ⟨by rw [hc, hdot, zero_div], fun _ => hc⟩
  · constructor
    · rw [cosineSimilarity, if_neg hne, if_neg hden]
    · intro hor
      exact absurd (mul_eq_zero.mpr hor) hden

theorem cosineSimilarity_formula_w :
    ([(1 : ℝ), 0].length = [(1 : ℝ), 0].length) ∧
    cosineSimilarity [(1 : ℝ), 0] [(1 : ℝ), 0] =
      dotProduct [(1 : ℝ), 0] [(1 : ℝ), 0] /
        (Real.sqrt (dotProduct [(1 : ℝ), 0] [(1 : ℝ), 0]) *
          Real.sqrt (dotProduct [(1 : ℝ), 0] [(1 : ℝ), 0])) :=
  ⟨rfl, (cosineSimilarity_formula [(1 : ℝ), 0] [(1 : ℝ), 0] rfl).1⟩

/-- Claim C10: on vectors of different lengths the similarity function is
total and returns 0, so a dimension-mismatched embedding (such as the
384-dimension placeholder fallback of `generateEmbedding`) silently ranks
with score 0 instead of failing retrieval. -/
theorem cosineSimilarity_length_mismatch (a b : List ℝ) (h : a.length ≠ b.length) :
    cosineSimilarity a b = 0 := by
  rw [cosineSimilarity, if_pos h]

theorem cosineSimilarity_length_mismatch_w :
    ([(1 : ℝ)].length ≠ ([] : List ℝ).length) ∧ cosineSimilarity [(1 : ℝ)] [] = 0 :=
  ⟨by simp, cosineSimilarity_length_mismatch [(1 : ℝ)] [] (by simp)⟩

/-- Claim C6: while a generation is in flight, `send` is a no-op — the
state is returned unchanged (the message is dropped, not queued) and no
second generation is started. -/
theorem send_busy_noop (text imageUri : Option Str) (env : GenEnv) (st : ChatState)
    (h : st.isGenerating = true) : send text imageUri env st = (st, false) := by
  rw [send.eq_def]
  simp [h]

theorem send_busy_noop_w :
    send (some "hi".toList) none
      ⟨true, true, .ok [], .error [], [], none, [], [], [], [], []⟩
      ⟨[], [], true, [], [], none⟩ =
      (⟨[], [], true, [], [], none⟩, false) :=
  send_busy_noop (some "hi".toList) none _ _ rfl

/-- Claim C1: when a completion carries more than one `generate_report`
call, only the first is dispatched: the dispatcher returns the result
built from the first matching call and its effect trace holds exactly one
artifact build and one stored report. -/
theorem handleToolCall_exactly_once (calls : List FunctionCall) (messages : List ChatMsg)
    (nowMs nowDate nowTime : Str) (pdfOutcome : Option Str)
    (h : 1 < (calls.filter fun c => c.name = generateReportName).length) :
    ∃ firstCall rest,
      calls.filter (fun c => c.name = generateReportName) = firstCall :: rest ∧
      handleToolCall calls messages nowMs nowDate nowTime pdfOutcome =
        (some { response := "Report generated! Tap to view or share the PDF.".toList
                report := buildReport firstCall.arguments messages nowMs nowDate nowTime
                pdfUri := pdfOutcome },
         [ToolEffect.builtPdf (buildReport firstCall.arguments messages nowMs nowDate nowTime),
          ToolEffect.setReport (buildReport firstCall.arguments messages nowMs nowDate nowTime)]) ∧
      (handleToolCall calls messages nowMs nowDate nowTime pdfOutcome).2.countP isBuildEffect = 1 := by
  induction calls with
  | nil => simp at h
  | cons call rest ih =>
    by_cases hc : call.name = generateReportName
    · refine ⟨call, rest.filter fun c => c.name = generateReportName, ?_, ?_, ?_⟩
      · rw [List.filter_cons_of_pos (by simpa using hc)]
      · rw [handleToolCall, if_pos hc]
      · rw [handleToolCall, if_pos hc]
        simp [isBuildEffect]
    · rw [List.filter_cons_of_neg (by simpa using hc)] at h
      obtain ⟨f, r, hf, heq, hcount⟩ := ih h
      refine ⟨f, r, ?_, ?_, ?_⟩
      · rw [List.filter_cons_of_neg (by simpa using hc)]
        exact hf
      · rw [handleToolCall, if_neg hc]
        exact heq
      · rw [handleToolCall, if_neg hc]
        exact hcount

theorem handleToolCall_exactly_once_w :
    (1 < (([⟨generateReportName, {}⟩, ⟨generateReportName, {}⟩] : List FunctionCall).filter
        fun c => c.name = generateReportName).length) ∧
    (handleToolCall [⟨generateReportName, {}⟩, ⟨generateReportName, {}⟩]
        [] [] [] [] none).2.countP isBuildEffect = 1 := by
  refine ⟨by decide, ?_⟩
  obtain ⟨f, r, hf, heq, hcount⟩ :=
    handleToolCall_exactly_once
      [⟨generateReportName, {}⟩, ⟨generateReportName, {}⟩] [] [] [] [] none (by decide)
  exact hcount

theorem dropWhile_self (p : Char → Bool) (l : Str) :
    (l.dropWhile p).dropWhile p = l.dropWhile p := by
  induction l with
  | nil => simp
  | cons c cs ih =>
    by_cases h : p c
    · simp [List.dropWhile_cons, h, ih]
    · simp [List.dropWhile_cons, h]

theorem dropWhile_suffix_exists (p : Char → Bool) (l : Str) :
    ∃ s, s ++ l.dropWhile p = l := by
  induction l with
  | nil => exact ⟨[], rfl⟩
  | cons c cs ih =>
    by_cases h : p c
    · obtain ⟨s, hs⟩ := ih
      exact ⟨c :: s, by simp [List.dropWhile_cons, h, hs]⟩
    · exact ⟨[], by simp [List.dropWhile_cons, h]⟩

theorem trimEnd_idem (l : Str) : trimEnd (trimEnd l) = trimEnd l := by
  simp [trimEnd, dropWhile_self]

theorem trimChars_eq_trimEnd (l : Str) : trimChars l = trimEnd (l.dropWhile isWS) := rfl

theorem trimEnd_prefix_exists (l : Str) : ∃ t, trimEnd l ++ t = l := by
  obtain ⟨s, hs⟩ := dropWhile_suffix_exists isWS l.reverse
  refine ⟨s.reverse, ?_⟩
  have := congrArg List.reverse hs
  simpa [trimEnd] using this

theorem length_dropWhile_below (p : Char → Bool) (l : Str) :
    (l.dropWhile p).length ≤ l.length := by
  obtain ⟨s, hs⟩ := dropWhile_suffix_exists p l
  calc (l.dropWhile p).length ≤ s.length + (l.dropWhile p).length := Nat.le_add_left _ _
    _ = l.length := by rw [← List.length_append, hs]

theorem dropWhile_trimEnd (l : Str) (h : l.dropWhile isWS = l) :
    (trimEnd l).dropWhile isWS = trimEnd l := by
  obtain ⟨t, ht⟩ := trimEnd_prefix_exists l
  cases he : trimEnd l with
  | nil => rfl
  | cons c cs =>
    rw [he] at ht
    have hc : isWS c = false := by
      cases hcv : isWS c
      · rfl
      · exfalso
        have hdw : l = (cs ++ t).dropWhile isWS := by
          conv_lhs => rw [← h, ← ht]
          rw [List.cons_append, List.dropWhile_cons, hcv]
          simp
        have h1 : l.length ≤ (cs ++ t).length := by
          rw [hdw]
          exact length_dropWhile_below _ _
        have h2 : l.length = (cs ++ t).length + 1 := by
          rw [← ht, List.cons_append, List.length_cons]
        omega
    rw [List.dropWhile_cons, hc]
    simp

theorem trimChars_idem (l : Str) : trimChars (trimChars l) = trimChars l := by
  rw [trimChars_eq_trimEnd l, trimChars_eq_trimEnd]
  rw [dropWhile_trimEnd _ (dropWhile_self isWS l), trimEnd_idem]

theorem occursCI_tail (pat : Str) (c : Char) (cs : Str)
    (h : occursCI pat (c :: cs) = false) : occursCI pat cs = false := by
  rw [occursCI] at h
  exact (Bool.or_eq_false_iff.mp h).2

theorem startsWithCI_false_of_noOccur (pat : Str) (c : Char) (cs : Str)
    (h : occursCI pat (c :: cs) = false) : startsWithCI pat (c :: cs) = false := by
  rw [occursCI] at h
  exact (Bool.or_eq_false_iff.mp h).1

theorem occursCI_drop (pat : Str) (n : Nat) (l : Str) (h : occursCI pat l = false) :
    occursCI pat (List.drop n l) = false := by
  induction n generalizing l with
  | zero => simpa using h
  | succ m ih =>
    cases l with
    | nil => simpa using h
    | cons c cs =>
      rw [List.drop_succ_cons]
      exact ih cs (occursCI_tail pat c cs h)

theorem rbGo_id_of_noOpen (l : Str) (h : occursCI thinkOpen l = false) :
    rbGo 0 false l = l := by
  induction l with
  | nil => rfl
  | cons c cs ih =>
    rw [rbGo, startsWithCI_false_of_noOccur _ _ _ h]
    rw [ih (occursCI_tail _ _ _ h)]
    simp

theorem rbGo_id_of_noClose (l : Str) (h : occursCI thinkClose l = false) :
    rbGo 0 false l = l := by
  induction l with
  | nil => rfl
  | cons c cs ih =>
    have h6 : occursCI thinkClose (List.drop 6 cs) = false :=
      occursCI_drop _ 6 cs (occursCI_tail _ _ _ h)
    rw [rbGo, h6]
    rw [ih (occursCI_tail _ _ _ h)]
    simp

theorem removeAllGo_id (pat : Str) (l : Str) (h : occursCI pat l = false) :
    removeAllGo pat 0 l = l := by
  induction l with
  | nil => rfl
  | cons c cs ih =>
    rw [removeAllGo, if_neg ?_, ih (occursCI_tail _ _ _ h)]
    simp [startsWithCI_false_of_noOccur _ _ _ h]

theorem rtGo_id (l : Str) (h : hasSpecialToken l = false) : rtGo 0 l = l := by
  induction l with
  | nil => rfl
  | cons c cs ih =>
    rw [hasSpecialToken, Bool.or_eq_false_iff] at h
    by_cases hc : c = '<' ∧ cs.head? = some '|'
    · have hspan : tokenSpan (List.drop 1 cs) = none := by
        have := h.1
        rw [decide_eq_true hc] at this
        simpa using this
      rw [rtGo, if_pos hc, hspan, ih h.2]
    · rw [rtGo, if_neg hc, ih h.2]

theorem cnGo_id (l : Str) (h : hasTripleNewline l = false) : cnGo 0 l = l := by
  induction l with
  | nil => rfl
  | cons c cs ih =>
    rw [hasTripleNewline, Bool.or_eq_false_iff] at h
    have hc : ¬(c = '\n' ∧ 2 ≤ nlRun cs) := of_decide_eq_false h.1
    rw [cnGo, if_neg hc, ih h.2]

/-- Claim C4 (counterexample): `sanitize` is not idempotent on the display
channel.  Stripping the control token from `"<th<|a|>ink>Hello"` splices
the surrounding text into a fresh `"<think>"` marker, which only a second
pass removes. -/
theorem cleanResponse_not_idempotent :
    (cleanResponse ((cleanResponse "<th<|a|>ink>Hello".toList).clean)).clean ≠
      (cleanResponse "<th<|a|>ink>Hello".toList).clean := by
  decide

/-- Claim C4 (amended): on the display channel, sanitizing is idempotent
for every input whose sanitized display carries no residual reasoning
delimiter, no control-token occurrence, and no run of three or more
newlines (in general a removal can splice adjacent text into a new marker
which a second pass also strips). -/
theorem cleanResponse_display_idempotent (x : Str)
    (h1 : occursCI thinkOpen (cleanResponse x).clean = false)
    (h2 : occursCI thinkClose (cleanResponse x).clean = false)
    (h3 : hasSpecialToken (cleanResponse x).clean = false)
    (h4 : hasTripleNewline (cleanResponse x).clean = false) :
    (cleanResponse ((cleanResponse x).clean)).clean = (cleanResponse x).clean := by
  have e6 : trimChars ((cleanResponse x).clean) = (cleanResponse x).clean :=
    trimChars_idem _
  generalize hD : (cleanResponse x).clean = D at h1 h2 h3 h4 e6 ⊢
  show trimChars (collapseNewlines (removeSpecialTokens (removeAllCI thinkClose
      (removeAllCI thinkOpen (removeThinkBlocks D))))) = D
  rw [show removeThinkBlocks D = D from rbGo_id_of_noOpen D h1,
    show removeAllCI thinkOpen D = D from removeAllGo_id _ D h1,
    show removeAllCI thinkClose D = D from removeAllGo_id _ D h2,
    show removeSpecialTokens D = D from rtGo_id D h3,
    show collapseNewlines D = D from cnGo_id D h4, e6]

theorem cleanResponse_display_idempotent_w :
    (occursCI thinkOpen (cleanResponse "<think>r</think> Hi".toList).clean = false ∧
      occursCI thinkClose (cleanResponse "<think>r</think> Hi".toList).clean = false ∧
      hasSpecialToken (cleanResponse "<think>r</think> Hi".toList).clean = false ∧
      hasTripleNewline (cleanResponse "<think>r</think> Hi".toList).clean = false) ∧
    (cleanResponse ((cleanResponse "<think>r</think> Hi".toList).clean)).clean =
      (cleanResponse "<think>r</think> Hi".toList).clean :=
  ⟨⟨by decide, by decide, by decide, by decide⟩,
    cleanResponse_display_idempotent _ (by decide) (by decide) (by decide) (by decide)⟩

theorem occursCI_append_elim (pat : Str) (a y : Str)
    (h : occursCI pat (a ++ y) = false) : occursCI pat y = false := by
  induction a with
  | nil => simpa using h
  | cons c cs ih => exact ih (occursCI_tail _ _ _ h)

theorem startsWithCI_self_append (p l : Str) : startsWithCI p (p ++ l) = true := by
  induction p with
  | nil => rfl
  | cons c cs ih => simp [startsWithCI, charEqCI, ih]

theorem removeAllGo_consume (pat : Str) (l y : Str) :
    removeAllGo pat l.length (l ++ y) = removeAllGo pat 0 y := by
  induction l with
  | nil => rfl
  | cons c cs ih => simpa [removeAllGo] using ih

theorem removeAllCI_cons_self (c : Char) (ps y : Str) :
    removeAllCI (c :: ps) ((c :: ps) ++ y) = removeAllCI (c :: ps) y := by
  rw [removeAllCI, removeAllCI, List.cons_append, removeAllGo,
    if_pos (by simpa [List.cons_append] using startsWithCI_self_append (c :: ps) y)]
  have hl : (c :: ps).length - 1 = ps.length := by simp
  rw [hl]
  exact removeAllGo_consume (c :: ps) ps y

theorem takeUntilCI_none (pat : Str) (l : Str) (h : occursCI pat l = false) :
    takeUntilCI pat l = none := by
  induction l with
  | nil => rfl
  | cons c cs ih =>
    rw [takeUntilCI, if_neg ?_, ih (occursCI_tail _ _ _ h)]
    · rfl
    · simp [startsWithCI_false_of_noOccur _ _ _ h]

theorem firstThinkBlock_none (l : Str) (h : occursCI thinkClose l = false) :
    firstThinkBlock l = none := by
  induction l with
  | nil => rfl
  | cons c cs ih =>
    rw [firstThinkBlock]
    by_cases hs : startsWithCI thinkOpen (c :: cs) = true
    · rw [if_pos hs, takeUntilCI_none _ _ (occursCI_drop _ 6 cs (occursCI_tail _ _ _ h))]
      exact ih (occursCI_tail _ _ _ h)
    · rw [if_neg hs]
      exact ih (occursCI_tail _ _ _ h)

/-- Claim C7: `sanitize` extracts the first well-formed reasoning block
into `reasoning` and strips it from `display`
(`"<think>reason</think>Hello"` yields `reasoning = "reason"`,
`display = "Hello"`), and an orphan open delimiter with no matching close
anywhere is stripped without deleting the remaining text: the display
equals that of the text without the orphan tag, and no reasoning is
extracted. -/
theorem cleanResponse_extract_and_orphan :
    (∀ y : Str, occursCI thinkClose (thinkOpen ++ y) = false →
      (cleanResponse (thinkOpen ++ y)).clean = (cleanResponse y).clean ∧
      (cleanResponse (thinkOpen ++ y)).reasoning = []) ∧
    (cleanResponse "<think>reason</think>Hello".toList).reasoning = "reason".toList ∧
    (cleanResponse "<think>reason</think>Hello".toList).clean = "Hello".toList := by
  refine ⟨fun y hy => ⟨?_, ?_⟩, by decide, by decide⟩
  · have hyc : occursCI thinkClose y = false := occursCI_append_elim _ thinkOpen y hy
    have e1 : removeThinkBlocks (thinkOpen ++ y) = thinkOpen ++ y := rbGo_id_of_noClose _ hy
    have e2 : removeThinkBlocks y = y := rbGo_id_of_noClose _ hyc
    have e3 : removeAllCI thinkOpen (thinkOpen ++ y) = removeAllCI thinkOpen y :=
      removeAllCI_cons_self '<' "think>".toList y
    show trimChars (collapseNewlines (removeSpecialTokens (removeAllCI thinkClose
        (removeAllCI thinkOpen (removeThinkBlocks (thinkOpen ++ y)))))) =
      trimChars (collapseNewlines (removeSpecialTokens (removeAllCI thinkClose
        (removeAllCI thinkOpen (removeThinkBlocks y)))))
    rw [e1, e2, e3]
  · show (match firstThinkBlock (thinkOpen ++ y) with
      | some inner => trimChars inner
      | none => []) = []
    rw [firstThinkBlock_none _ hy]

theorem cleanResponse_extract_and_orphan_w :
    occursCI thinkClose (thinkOpen ++ "Hi".toList) = false ∧
    (cleanResponse (thinkOpen ++ "Hi".toList)).clean = (cleanResponse "Hi".toList).clean :=
  ⟨by decide, (cleanResponse_extract_and_orphan.1 "Hi".toList (by decide)).1⟩

theorem sortScored_sorted (l : List Source) : List.Pairwise scoreGE (sortScored l) :=
  List.sorted_insertionSort scoreGE l

theorem sortScored_perm (l : List Source) : List.Perm (sortScored l) l :=
  List.perm_insertionSort scoreGE l

theorem sortScored_singleton (x : Source) : sortScored [x] = [x] := rfl

theorem retrieveRelevantContext_ok (qe : List ℝ) (docs : List StoredDocument)
    (hd : docs.isEmpty = false) :
    retrieveRelevantContext true (.ok qe) docs =
      if (topChunksOf qe docs).isEmpty then
        (if 0 < ((sortScored (scoreChunks qe docs)).take 2).length then
          ⟨contextOf ((sortScored (scoreChunks qe docs)).take 2),
            (sortScored (scoreChunks qe docs)).take 2⟩
        else ⟨[], []⟩)
      else ⟨contextOf (topChunksOf qe docs), topChunksOf qe docs⟩ := by
  rw [retrieveRelevantContext, if_neg (by simp [hd])]

/-- Claim C3 (amended): retrieval returns at most 3 sources, sorted by
non-increasing score and drawn in order from the stable descending sort
of the corpus-ordered scored chunks (ties keep corpus order); when the
threshold path is taken, every returned score is at least the
implementation's `minScore` of 0.3 (the filter is strictly
`score > 0.3`), not the claimed 0.5. -/
theorem retrieve_ranked (qe : List ℝ) (docs : List StoredDocument) :
    (retrieveRelevantContext true (.ok qe) docs).sources.length ≤ 3 ∧
    List.Pairwise scoreGE (retrieveRelevantContext true (.ok qe) docs).sources ∧
    (retrieveRelevantContext true (.ok qe) docs).sources.Sublist
      (sortScored (scoreChunks qe docs)) ∧
    (topChunksOf qe docs ≠ [] →
      (retrieveRelevantContext true (.ok qe) docs).sources = topChunksOf qe docs ∧
      ∀ s ∈ (retrieveRelevantContext true (.ok qe) docs).sources,
        (0.3 : ℝ) ≤ s.score) := by
  have hsorted := sortScored_sorted (scoreChunks qe docs)
  by_cases hd : docs.isEmpty
  · have hdocs : docs = [] := List.isEmpty_iff.mp hd
    subst hdocs
    have hsrc : (retrieveRelevantContext true (.ok qe) []).sources = [] := by
      rw [retrieveRelevantContext]
      simp
    have htop : topChunksOf qe [] = [] := by
      rw [topChunksOf]
      simp [scoreChunks, sortScored, List.insertionSort]
    rw [hsrc]
    exact ⟨by simp, by simp, by simp, fun h => absurd htop h⟩
  · have hd' : docs.isEmpty = false := by simpa using hd
    rw [retrieveRelevantContext_ok qe docs hd']
    by_cases ht : (topChunksOf qe docs).isEmpty
    · rw [if_pos ht]
      by_cases hlen : 0 < ((sortScored (scoreChunks qe docs)).take 2).length
      · rw [if_pos hlen]
        refine ⟨le_trans (List.length_take_le 2 _) (by norm_num),
          hsorted.sublist (List.take_sublist _ _), List.take_sublist _ _,
          fun h => absurd (List.isEmpty_iff.mp ht) h⟩
      · rw [if_neg hlen]
        exact ⟨by simp, by simp, by simp, fun h => absurd (List.isEmpty_iff.mp ht) h⟩
    · rw [if_neg ht]
      have hsub : (topChunksOf qe docs).Sublist (sortScored (scoreChunks qe docs)) := by
        rw [topChunksOf]
        exact (List.filter_sublist _).trans (List.take_sublist _ _)
      refine ⟨?_, hsorted.sublist hsub, hsub, fun _ => ⟨rfl, ?_⟩⟩
      · calc (topChunksOf qe docs).length
            ≤ ((sortScored (scoreChunks qe docs)).take 3).length := by
              rw [topChunksOf]
              exact List.length_filter_le _ _
          _ ≤ 3 := List.length_take_le _ _
      · intro s hs
        have hs' : s ∈ ((sortScored (scoreChunks qe docs)).take 3).filter
            (fun c => decide ((0.3 : ℝ) < c.score)) := hs
        exact le_of_lt (of_decide_eq_true (List.mem_filter.mp hs').2)

theorem sqrt_twentyfive : Real.sqrt 25 = 5 := by
  rw [show (25 : ℝ) = 5 ^ 2 by norm_num]
  exact Real.sqrt_sq (by norm_num)

theorem sqrt_onesixtynine : Real.sqrt 169 = 13 := by
  rw [show (169 : ℝ) = 13 ^ 2 by norm_num]
  exact Real.sqrt_sq (by norm_num)

theorem cosine_mid : cosineSimilarity [(5 : ℝ), 0] [(5 : ℝ), 12] = 25 / 65 := by
  rw [cosineSimilarity, if_neg (by simp)]
  have h1 : dotProduct [(5 : ℝ), 0] [(5 : ℝ), 0] = 25 := by norm_num [dotProduct]
  have h2 : dotProduct [(5 : ℝ), 12] [(5 : ℝ), 12] = 169 := by norm_num [dotProduct]
  have h3 : dotProduct [(5 : ℝ), 0] [(5 : ℝ), 12] = 25 := by norm_num [dotProduct]
  rw [h1, h2, h3, sqrt_twentyfive, sqrt_onesixtynine, if_neg (by norm_num)]
  norm_num

theorem cosine_orth : cosineSimilarity [(1 : ℝ)] [(0 : ℝ)] = 0 := by
  rw [cosineSimilarity, if_neg (by simp)]
  have h1 : dotProduct [(1 : ℝ)] [(1 : ℝ)] = 1 := by norm_num [dotProduct]
  have h2 : dotProduct [(0 : ℝ)] [(0 : ℝ)] = 0 := by norm_num [dotProduct]
  have h3 : dotProduct [(1 : ℝ)] [(0 : ℝ)] = 0 := by norm_num [dotProduct]
  rw [h1, h2, h3, Real.sqrt_one, Real.sqrt_zero, if_pos (by norm_num)]
  norm_num

theorem scoreChunks_mid :
    scoreChunks [(5 : ℝ), 0] [midDoc] =
      [⟨"policy".toList, "beta".toList, 25 / 65⟩] := by
  rw [scoreChunks]
  simp [midDoc, cosine_mid, show List.range 1 = [0] from rfl]

theorem scoreChunks_zero :
    scoreChunks [(1 : ℝ)] [zeroDoc] =
      [⟨"policy".toList, "alpha".toList, 0⟩] := by
  rw [scoreChunks]
  simp [zeroDoc, cosine_orth, show List.range 1 = [0] from rfl]

theorem topChunks_mid :
    topChunksOf [(5 : ℝ), 0] [midDoc] = [⟨"policy".toList, "beta".toList, 25 / 65⟩] := by
  rw [topChunksOf, scoreChunks_mid, sortScored_singleton]
  rw [show List.take 3 [(⟨"policy".toList, "beta".toList, 25 / 65⟩ : Source)] =
      [⟨"policy".toList, "beta".toList, 25 / 65⟩] from rfl]
  rw [List.filter_cons, if_pos (by norm_num)]
  rfl

theorem topChunks_zero : topChunksOf [(1 : ℝ)] [zeroDoc] = [] := by
  rw [topChunksOf, scoreChunks_zero, sortScored_singleton]
  rw [show List.take 3 [(⟨"policy".toList, "alpha".toList, 0⟩ : Source)] =
      [⟨"policy".toList, "alpha".toList, 0⟩] from rfl]
  rw [List.filter_cons, if_neg (by norm_num)]
  rfl

theorem sources_mid :
    (retrieveRelevantContext true (.ok [(5 : ℝ), 0]) [midDoc]).sources =
      [⟨"policy".toList, "beta".toList, 25 / 65⟩] := by
  rw [retrieveRelevantContext_ok _ _ (by simp)]
  rw [if_neg (by rw [topChunks_mid]; simp)]
  simp [topChunks_mid]

/-- Claim C3 (counterexample): with the one-chunk corpus `[midDoc]` and
query `[5, 0]` the threshold path is taken, yet the returned source scores
`25/65 ≈ 0.385 < 0.5`: the implementation's `minScore` is 0.3, not the
claimed 0.5. -/
theorem retrieve_minScore_cex :
    topChunksOf [(5 : ℝ), 0] [midDoc] ≠ [] ∧
    ¬(∀ s ∈ (retrieveRelevantContext true (.ok [(5 : ℝ), 0]) [midDoc]).sources,
        (0.5 : ℝ) ≤ s.score) := by
  constructor
  · rw [topChunks_mid]
    simp
  · intro hall
    have := hall ⟨"policy".toList, "beta".toList, 25 / 65⟩ (by rw [sources_mid]; simp)
    norm_num at this

theorem retrieve_ranked_w :
    (retrieveRelevantContext true (.ok [(5 : ℝ), 0]) [midDoc]).sources =
      topChunksOf [(5 : ℝ), 0] [midDoc] ∧
    ∀ s ∈ (retrieveRelevantContext true (.ok [(5 : ℝ), 0]) [midDoc]).sources,
      (0.3 : ℝ) ≤ s.score :=
  (retrieve_ranked [(5 : ℝ), 0] [midDoc]).2.2.2 (by rw [topChunks_mid]; simp)

/-- Claim C2 (amended): when the corpus holds at least one chunk and no
chunk passes the `score > 0.3` filter, retrieval falls back to the top
`min 2 n` unfiltered scored chunks (`n` the total chunk count): exactly 2
when the corpus holds at least two chunks, and never an empty sequence. -/
theorem retrieve_fallback (qe : List ℝ) (docs : List StoredDocument)
    (hne : docs.isEmpty = false)
    (hchunks : scoreChunks qe docs ≠ [])
    (hfail : ∀ s ∈ scoreChunks qe docs, ¬(0.3 : ℝ) < s.score) :
    (retrieveRelevantContext true (.ok qe) docs).sources =
      (sortScored (scoreChunks qe docs)).take 2 ∧
    (retrieveRelevantContext true (.ok qe) docs).sources ≠ [] ∧
    (retrieveRelevantContext true (.ok qe) docs).sources.length =
      min 2 (scoreChunks qe docs).length := by
  have htop : topChunksOf qe docs = [] := by
    rw [topChunksOf, List.filter_eq_nil_iff]
    intro a ha
    have ham : a ∈ scoreChunks qe docs :=
      (sortScored_perm (scoreChunks qe docs)).mem_iff.mp ((List.take_sublist 3 _).subset ha)
    simpa using hfail a ham
  have hlen0 : 0 < (scoreChunks qe docs).length := List.length_pos.mpr hchunks
  have hlen2 : ((sortScored (scoreChunks qe docs)).take 2).length =
      min 2 (scoreChunks qe docs).length := by
    rw [List.length_take, (sortScored_perm (scoreChunks qe docs)).length_eq]
  have hpos : 0 < ((sortScored (scoreChunks qe docs)).take 2).length := by
    rw [hlen2]
    omega
  rw [retrieveRelevantContext_ok qe docs hne, if_pos (by rw [htop]; rfl), if_pos hpos]
  exact ⟨rfl, List.ne_nil_of_length_pos hpos, hlen2⟩

theorem sources_zero :
    (retrieveRelevantContext true (.ok [(1 : ℝ)]) [zeroDoc]).sources =
      [⟨"policy".toList, "alpha".toList, 0⟩] := by
  rw [retrieveRelevantContext_ok _ _ (by simp), if_pos (by rw [topChunks_zero]; rfl)]
  rw [scoreChunks_zero, sortScored_singleton]
  rw [if_pos (by simp)]
  simp

/-- Claim C2 (counterexample): the non-empty one-chunk corpus `[zeroDoc]`
passes nothing through the score filter against the query `[1]`, and the
fallback returns ONE source — not exactly 2 as claimed. -/
theorem retrieve_fallback_cex :
    ([zeroDoc] : List StoredDocument) ≠ [] ∧
    (∀ s ∈ scoreChunks [(1 : ℝ)] [zeroDoc], ¬(0.3 : ℝ) < s.score) ∧
    (retrieveRelevantContext true (.ok [(1 : ℝ)]) [zeroDoc]).sources.length = 1 := by
  refine ⟨by simp, ?_, by rw [sources_zero]; rfl⟩
  intro s hs
  rw [scoreChunks_zero, List.mem_singleton] at hs
  subst hs
  norm_num

theorem retrieve_fallback_w :
    (retrieveRelevantContext true (.ok [(1 : ℝ)]) [zeroDoc]).sources ≠ [] ∧
    (retrieveRelevantContext true (.ok [(1 : ℝ)]) [zeroDoc]).sources.length =
      min 2 (scoreChunks [(1 : ℝ)] [zeroDoc]).length := by
  obtain ⟨h1, h2, h3⟩ := retrieve_fallback [(1 : ℝ)] [zeroDoc] (by simp)
    (by rw [scoreChunks_zero]; simp)
    (by intro s hs
        rw [scoreChunks_zero, List.mem_singleton] at hs
        subst hs
        norm_num)
  exact ⟨h2, h3⟩

theorem map_upd_id (tid : Str) (f : ChatMsg → ChatMsg) (ms : List ChatMsg)
    (h : tid ∉ ms.map fun m => m.id) :
    (ms.map fun m => if m.id = tid then f m else m) = ms := by
  induction ms with
  | nil => rfl
  | cons m ms ih =>
    rw [List.map_cons, List.mem_cons, not_or] at h
    rw [List.map_cons, if_neg (fun hc => h.1 hc.symm), ih h.2]

theorem generateResponse_error (t : Str) (messageId : Option Str) (env : GenEnv)
    (st : ChatState) (e : Str) (htext : env.textLoaded = true)
    (herr : env.completeOutcome = .error e) :
    generateResponse t none messageId env st =
      (st, ⟨"Error: ".toList ++ (if e.isEmpty then "Generation failed".toList else e),
        [], []⟩) := by
  rw [generateResponse.eq_def]
  simp [htext, herr]

theorem send_step (t : Str) (imageUri : Option Str) (env : GenEnv) (st : ChatState)
    (hbusy : st.isGenerating = false) (ht : t.isEmpty = false) :
    send (some t) imageUri env st =
      (let st1 := { st with
          messages := st.messages ++ [mkUserMsg t imageUri env, mkThinkingMsg imageUri env st]
          input := []
          isGenerating := true }
       let out := generateResponse t imageUri (some env.thinkingId) env st1
       ({ out.1 with
          messages := out.1.messages.map fun m =>
            if m.id = env.thinkingId then
              { m with
                  text := out.2.response
                  sources := some out.2.sources
                  reasoning := some out.2.reasoning
                  isSearching := some false }
            else m
          isGenerating := false }, true)) := by
  rw [send.eq_def]
  simp [ht, hbusy]

/-- Claim C9: on a turn whose generation fails (the streaming completion
throws), the user's message remains appended to the visible history and
only the assistant side of the turn is finalized as an inline error
placeholder: the message list becomes exactly the old list, the user
message, and the error assistant message, and the in-flight flag is
cleared. -/
theorem send_failed_turn (t : Str) (env : GenEnv) (st : ChatState) (e : Str)
    (hbusy : st.isGenerating = false)
    (ht : t.isEmpty = false)
    (htext : env.textLoaded = true)
    (herr : env.completeOutcome = Except.error e)
    (hfresh : env.thinkingId ∉ st.messages.map fun m => m.id)
    (hids : env.userMsgId ≠ env.thinkingId) :
    (send (some t) none env st).1.messages =
      st.messages ++ [mkUserMsg t none env, errAssistantMsg e env] ∧
    (send (some t) none env st).1.isGenerating = false := by
  rw [send_step t none env st hbusy ht]
  simp only []
  rw [generateResponse_error t (some env.thinkingId) env _ e htext herr]
  constructor
  · show ((st.messages ++ [mkUserMsg t none env, mkThinkingMsg none env st]).map fun m =>
        if m.id = env.thinkingId then
          { m with
              text := "Error: ".toList ++ (if e.isEmpty then "Generation failed".toList else e)
              sources := some ([] : List Source)
              reasoning := some ([] : Str)
              isSearching := some false }
        else m) =
      st.messages ++ [mkUserMsg t none env, errAssistantMsg e env]
    rw [List.map_append, map_upd_id _ _ _ hfresh]
    by_cases hdoc : st.documents.isEmpty
    · simp [mkUserMsg, mkThinkingMsg, errAssistantMsg, hdoc, hids]
    · simp [mkUserMsg, mkThinkingMsg, errAssistantMsg, hdoc, hids]
  · trivial

theorem send_failed_turn_w :
    (send (some "hi".toList) none
        ⟨true, true, .ok [], .error "boom".toList, [], none, "1".toList, "2".toList, [], [], []⟩
        ⟨[], [], false, [], [], none⟩).1.messages =
      [] ++ [mkUserMsg "hi".toList none
          ⟨true, true, .ok [], .error "boom".toList, [], none, "1".toList, "2".toList, [], [], []⟩,
        errAssistantMsg "boom".toList
          ⟨true, true, .ok [], .error "boom".toList, [], none, "1".toList, "2".toList, [], [], []⟩] :=
  (send_failed_turn "hi".toList
    ⟨true, true, .ok [], .error "boom".toList, [], none, "1".toList, "2".toList, [], [], []⟩
    ⟨[], [], false, [], [], none⟩ "boom".toList rfl rfl rfl rfl (by simp) (by decide)).1

theorem splitDelims_cons_delim (c : Char) (cs : Str) (hc : isSentenceDelim c = true) :
    splitDelims (c :: cs) = [] :: splitDelims cs := by
  rw [splitDelims, hc]
  cases hsp : splitDelims cs <;> rfl

theorem splitDelims_cons_nondelim (c : Char) (cs : Str) (hc : isSentenceDelim c = false)
    (s : Str) (ss : List Str) (hsp : splitDelims cs = s :: ss) :
    splitDelims (c :: cs) = (c :: s) :: ss := by
  rw [splitDelims, hc, hsp]

theorem splitDelims_shape (l : Str) : ∃ s ss, splitDelims l = s :: ss := by
  induction l with
  | nil => exact ⟨[], [], rfl⟩
  | cons c cs ih =>
    obtain ⟨s, ss, hsp⟩ := ih
    cases hc : isSentenceDelim c
    · exact ⟨c :: s, ss, splitDelims_cons_nondelim c cs hc s ss hsp⟩
    · exact ⟨[], splitDelims cs, splitDelims_cons_delim c cs hc⟩

theorem splitDelims_append (x r : Str) (d : Char) (hd : isSentenceDelim d = true) :
    splitDelims (x ++ d :: r) = splitDelims x ++ splitDelims r := by
  induction x with
  | nil =>
    rw [List.nil_append, splitDelims_cons_delim d r hd]
    rfl
  | cons c cs ih =>
    cases hc : isSentenceDelim c
    · obtain ⟨s, ss, hsp⟩ := splitDelims_shape (cs ++ d :: r)
      obtain ⟨s2, ss2, hsp2⟩ := splitDelims_shape cs
      rw [List.cons_append, splitDelims_cons_nondelim c (cs ++ d :: r) hc s ss hsp,
        splitDelims_cons_nondelim c cs hc s2 ss2 hsp2]
      rw [hsp, hsp2, List.cons_append] at ih
      have h1 : s = s2 := (List.cons_eq_cons.mp ih).1
      have h2 : ss = ss2 ++ splitDelims r := (List.cons_eq_cons.mp ih).2
      rw [List.cons_append, h1, h2]
    · rw [List.cons_append, splitDelims_cons_delim c _ hc, splitDelims_cons_delim c cs hc, ih]
      rfl

theorem splitDelims_delimFree_mem (l : Str) :
    ∀ s ∈ splitDelims l, ∀ c ∈ s, isSentenceDelim c = false := by
  induction l with
  | nil =>
    intro s hs
    rw [show splitDelims [] = [[]] from rfl] at hs
    rw [List.mem_singleton] at hs
    subst hs
    intro c hc
    exact absurd hc (List.not_mem_nil c)
  | cons a cs ih =>
    intro s hs
    cases hc : isSentenceDelim a
    · obtain ⟨s2, ss2, hsp2⟩ := splitDelims_shape cs
      rw [splitDelims_cons_nondelim a cs hc s2 ss2 hsp2, List.mem_cons] at hs
      rcases hs with h | h
      · subst h
        intro c hcc
        rcases List.mem_cons.mp hcc with h | h
        · subst h; exact hc
        · exact ih s2 (hsp2 ▸ List.mem_cons_self s2 ss2) c h
      · exact ih s (hsp2 ▸ List.mem_cons_of_mem s2 h)
  
    · rw [splitDelims_cons_delim a cs hc, List.mem_cons] at hs
      rcases hs with h | h
      · subst h
        intro c hcc
        exact absurd hcc (List.not_mem_nil c)
      · exact ih s h

theorem splitDelims_of_delimFree (l : Str) (h : ∀ c ∈ l, isSentenceDelim c = false) :
    splitDelims l = [l] := by
  induction l with
  | nil => rfl
  | cons c cs ih =>
    have hc : isSentenceDelim c = false := h c (List.mem_cons_self _ _)
    have hcs := ih fun x hx => h x (List.mem_cons_of_mem _ hx)
    exact splitDelims_cons_nondelim c cs hc cs [] hcs

theorem sentencesOf_append_delim (x r : Str) (d : Char) (hd : isSentenceDelim d = true) :
    sentencesOf (x ++ d :: r) = sentencesOf x ++ sentencesOf r := by
  rw [sentencesOf, sentencesOf, sentencesOf, splitDelims_append x r d hd, List.filter_append]

theorem sentencesOf_delimFree (l : Str) (h : ∀ c ∈ l, isSentenceDelim c = false)
    (hne : trimChars l ≠ []) : sentencesOf l = [l] := by
  rw [sentencesOf, splitDelims_of_delimFree l h]
  simp [List.isEmpty_iff, hne]

theorem trimChars_ws_cons (w : Char) (l : Str) (hw : isWS w = true) :
    trimChars (w :: l) = trimChars l := by
  rw [trimChars, trimChars, List.dropWhile_cons, hw]
  simp

theorem sentencesOf_space_cons (l : Str) :
    (sentencesOf (' ' :: l)).map trimChars = (sentencesOf l).map trimChars := by
  obtain ⟨s, ss, hsp⟩ := splitDelims_shape l
  rw [sentencesOf, sentencesOf,
    splitDelims_cons_nondelim ' ' l (by decide) s ss hsp, hsp]
  have htr : trimChars (' ' :: s) = trimChars s := trimChars_ws_cons ' ' s (by decide)
  rw [List.filter_cons, List.filter_cons, htr]
  by_cases hne : (trimChars s).isEmpty
  · rw [if_neg (by simp [hne]), if_neg (by simp [hne])]
  · rw [if_pos (by simp [hne]), if_pos (by simp [hne]), List.map_cons, List.map_cons, htr]

theorem dropWhile_subset_self (p : Char → Bool) (l : Str) : ∀ c ∈ l.dropWhile p, c ∈ l := by
  intro c hc
  obtain ⟨s, hs⟩ := dropWhile_suffix_exists p l
  rw [← hs]
  exact List.mem_append_right s hc

theorem trimChars_subset (l : Str) : ∀ c ∈ trimChars l, c ∈ l := by
  intro c hc
  rw [trimChars, List.mem_reverse] at hc
  have h1 := dropWhile_subset_self isWS _ _ hc
  rw [List.mem_reverse] at h1
  exact dropWhile_subset_self isWS _ _ h1

theorem ne_nil_of_trim_ne_nil (l : Str) (h : trimChars l ≠ []) : l ≠ [] := by
  intro hl
  subst hl
  exact h rfl

theorem dropWhile_ne_nil_of_trim_ne_nil (l : Str) (h : trimChars l ≠ []) :
    l.dropWhile isWS ≠ [] := by
  intro hnil
  apply h
  rw [trimChars_eq_trimEnd, hnil]
  rfl

theorem dropWhile_append_keep (p : Char → Bool) (l₁ l₂ : Str) (h : l₁.dropWhile p ≠ []) :
    (l₁ ++ l₂).dropWhile p = l₁.dropWhile p ++ l₂ := by
  induction l₁ with
  | nil => exact absurd rfl h
  | cons c cs ih =>
    cases hc : p c
    · rw [List.cons_append, List.dropWhile_cons, hc, List.dropWhile_cons, hc]
      simp
    · rw [List.dropWhile_cons, hc] at h
      rw [List.cons_append, List.dropWhile_cons, hc, List.dropWhile_cons, hc]
      simp only [if_pos rfl]
      exact ih (by simpa using h)

theorem trim_fix_of_eq (t : Str) (h : trimChars t = t) :
    t.dropWhile isWS = t ∧ t.reverse.dropWhile isWS = t.reverse := by
  have h1 : (t.dropWhile isWS).length ≤ t.length := length_dropWhile_below _ _
  have h2 : (trimChars t).length ≤ (t.dropWhile isWS).length := by
    rw [trimChars_eq_trimEnd, trimEnd]
    calc ((t.dropWhile isWS).reverse.dropWhile isWS).reverse.length
        = ((t.dropWhile isWS).reverse.dropWhile isWS).length := List.length_reverse _
      _ ≤ (t.dropWhile isWS).reverse.length := length_dropWhile_below _ _
      _ = (t.dropWhile isWS).length := List.length_reverse _
  have heq : (t.dropWhile isWS).length = t.length := by
    rw [h] at h2
    omega
  obtain ⟨s, hs⟩ := dropWhile_suffix_exists isWS t
  have hsnil : s = [] := by
    have hlen := congrArg List.length hs
    rw [List.length_append, heq] at hlen
    have : s.length = 0 := by omega
    exact List.length_eq_zero.mp this
  have hfix1 : t.dropWhile isWS = t := by
    rw [hsnil, List.nil_append] at hs
    exact hs
  refine ⟨hfix1, ?_⟩
  have h3 : trimEnd t = t := by
    conv_rhs => rw [← h]
    rw [trimChars_eq_trimEnd, hfix1]
  have h4 := congrArg List.reverse h3
  rw [trimEnd, List.reverse_reverse] at h4
  exact h4

theorem trimEnd_append_fix (z t : Str) (hne : t ≠ [])
    (hfix : t.reverse.dropWhile isWS = t.reverse) : trimEnd (z ++ t) = z ++ t := by
  rw [trimEnd, List.reverse_append,
    dropWhile_append_keep isWS t.reverse z.reverse (by rw [hfix]; simpa using hne),
    hfix, List.reverse_append, List.reverse_reverse, List.reverse_reverse]

theorem trimChars_dropWhile (l : Str) : trimChars (l.dropWhile isWS) = trimChars l := by
  rw [trimChars_eq_trimEnd, trimChars_eq_trimEnd, dropWhile_self]

theorem trimChars_append_fix (x S : Str) (hx : trimChars x ≠ []) (hSne : S ≠ [])
    (hSfix : S.reverse.dropWhile isWS = S.reverse) :
    trimChars (x ++ S) = x.dropWhile isWS ++ S := by
  rw [trimChars_eq_trimEnd,
    dropWhile_append_keep isWS x S (dropWhile_ne_nil_of_trim_ne_nil x hx)]
  exact trimEnd_append_fix _ S hSne hSfix

theorem sepJoin_append_singleton (ts : List Str) (t : Str) :
    sepJoin (ts ++ [t]) = sepJoin ts ++ ('.' :: ' ' :: t) := by
  rw [sepJoin, sepJoin, List.map_append, List.flatten_append]
  simp [sepDot]

theorem sentences_sepJoin (first : Str) (hf1 : ∀ c ∈ first, isSentenceDelim c = false)
    (hf2 : trimChars first ≠ []) :
    ∀ ts : List Str,
      (∀ t ∈ ts, (∀ c ∈ t, isSentenceDelim c = false) ∧ trimChars t = t ∧ t ≠ []) →
      (sentencesOf (first ++ sepJoin ts)).map trimChars = trimChars first :: ts := by
  intro ts
  induction ts using List.reverseRecOn with
  | nil =>
    intro _
    rw [show sepJoin [] = [] from rfl, List.append_nil,
      sentencesOf_delimFree first hf1 hf2]
    rfl
  | append_singleton ts t ih =>
    intro hts
    have ht := hts t (by simp)
    have hts' : ∀ u ∈ ts, (∀ c ∈ u, isSentenceDelim c = false) ∧ trimChars u = u ∧ u ≠ [] :=
      fun u hu => hts u (List.mem_append_left _ hu)
    have htne : trimChars t ≠ [] := by
      rw [ht.2.1]
      exact ht.2.2
    rw [sepJoin_append_singleton, ← List.append_assoc]
    rw [show ('.' : Char) :: ' ' :: t = '.' :: (' ' :: t) from rfl]
    rw [sentencesOf_append_delim _ (' ' :: t) '.' (by decide)]
    rw [List.map_append, ih hts', sentencesOf_space_cons,
      sentencesOf_delimFree t ht.1 htne]
    rw [List.map_singleton, ht.2.1]
    simp

theorem sentences_trim_sepJoin (first : Str) (hf1 : ∀ c ∈ first, isSentenceDelim c = false)
    (hf2 : trimChars first ≠ []) :
    ∀ ts : List Str,
      (∀ t ∈ ts, (∀ c ∈ t, isSentenceDelim c = false) ∧ trimChars t = t ∧ t ≠ []) →
      (sentencesOf (trimChars (first ++ sepJoin ts))).map trimChars =
        trimChars first :: ts := by
  intro ts
  cases ts using List.reverseRecOn with
  | nil =>
    intro _
    rw [show sepJoin [] = [] from rfl, List.append_nil]
    have happ := sentences_sepJoin (trimChars first)
      (fun c hc => hf1 c (trimChars_subset first c hc))
      (by rw [trimChars_idem]; exact hf2) [] (by simp)
    rw [show trimChars first ++ sepJoin [] = trimChars first from List.append_nil _] at happ
    rw [happ, trimChars_idem]
  | append_singleton ts t =>
    intro hts
    have ht := hts t (by simp)
    have hfixt := trim_fix_of_eq t ht.2.1
    have hSfix : (sepJoin (ts ++ [t])).reverse.dropWhile isWS =
        (sepJoin (ts ++ [t])).reverse := by
      rw [sepJoin_append_singleton, List.reverse_append,
        show (('.' : Char) :: ' ' :: t).reverse = t.reverse ++ [' ', '.'] from by simp,
        List.append_assoc,
        dropWhile_append_keep isWS t.reverse _ (by rw [hfixt.2]; simpa using ht.2.2),
        hfixt.2]
    have hSne : sepJoin (ts ++ [t]) ≠ [] := by
      rw [sepJoin_append_singleton]
      simp
    rw [trimChars_append_fix first _ hf2 hSne hSfix]
    have happ := sentences_sepJoin (first.dropWhile isWS)
      (fun c hc => hf1 c (dropWhile_subset_self isWS first c hc))
      (by rw [trimChars_dropWhile]; exact hf2) (ts ++ [t]) hts
    rw [happ, trimChars_dropWhile]

theorem isEmpty_false_of_form (first : Str) (ts : List Str) (hf2 : trimChars first ≠ []) :
    (first ++ sepJoin ts).isEmpty = false := by
  have h1 : first ≠ [] := ne_nil_of_trim_ne_nil first hf2
  cases first with
  | nil => exact absurd rfl h1
  | cons a b => rfl

theorem chunkGo_flat (n : Nat) :
    ∀ sents : List Str,
      (∀ s ∈ sents, (∀ c ∈ s, isSentenceDelim c = false) ∧ trimChars s ≠ []) →
      ∀ (first : Str) (ts : List Str),
        (∀ c ∈ first, isSentenceDelim c = false) → trimChars first ≠ [] →
        (∀ t ∈ ts, (∀ c ∈ t, isSentenceDelim c = false) ∧ trimChars t = t ∧ t ≠ []) →
        ((chunkGo n sents (first ++ sepJoin ts)).flatMap
            fun c => (sentencesOf c).map trimChars) =
          (trimChars first :: ts) ++ sents.map trimChars := by
  intro sents
  induction sents with
  | nil =>
    intro _ first ts hf1 hf2 hts
    have hne := isEmpty_false_of_form first ts hf2
    simp only [chunkGo, hne, Bool.false_eq_true, if_false]
    rw [show ([trimChars (first ++ sepJoin ts)].flatMap
        fun c => (sentencesOf c).map trimChars) =
      (sentencesOf (trimChars (first ++ sepJoin ts))).map trimChars ++ [] from by
        simp]
    rw [sentences_trim_sepJoin first hf1 hf2 ts hts]
    simp
  | cons s rest ih =>
    intro hsents first ts hf1 hf2 hts
    have hss := hsents s (List.mem_cons_self _ _)
    have hrest := fun u hu => hsents u (List.mem_cons_of_mem _ hu)
    have hne := isEmpty_false_of_form first ts hf2
    simp only [chunkGo]
    by_cases hflush : n < (first ++ sepJoin ts).length + s.length
    · rw [if_pos ⟨hflush, by simp [hne]⟩, List.flatMap_cons]
      rw [sentences_trim_sepJoin first hf1 hf2 ts hts]
      have hrec := ih hrest s [] hss.1 hss.2 (by simp)
      rw [show s ++ sepJoin [] = s from List.append_nil s] at hrec
      rw [hrec]
      simp
    · rw [if_neg (fun hcon => hflush hcon.1)]
      rw [show (if (first ++ sepJoin ts).isEmpty then ([] : Str) else sepDot) = sepDot from by
        simp [hne]]
      have hform : first ++ sepJoin ts ++ sepDot ++ trimChars s =
          first ++ sepJoin (ts ++ [trimChars s]) := by
        rw [sepJoin_append_singleton]
        simp [sepDot]
      rw [hform]
      have hnew : ∀ t ∈ ts ++ [trimChars s],
          (∀ c ∈ t, isSentenceDelim c = false) ∧ trimChars t = t ∧ t ≠ [] := by
        intro t htm
        rcases List.mem_append.mp htm with h | h
        · exact hts t h
        · rw [List.mem_singleton] at h
          subst h
          exact ⟨fun c hc => hss.1 c (trimChars_subset s c hc), trimChars_idem s, hss.2⟩
      rw [ih hrest first (ts ++ [trimChars s]) hf1 hf2 hnew]
      simp

theorem chunkGo_flat_nil (n : Nat) (sents : List Str)
    (hs : ∀ s ∈ sents, (∀ c ∈ s, isSentenceDelim c = false) ∧ trimChars s ≠ []) :
    ((chunkGo n sents []).flatMap fun c => (sentencesOf c).map trimChars) =
      sents.map trimChars := by
  cases sents with
  | nil => rfl
  | cons s rest =>
    have hss := hs s (List.mem_cons_self _ _)
    have hrest := fun u hu => hs u (List.mem_cons_of_mem _ hu)
    simp only [chunkGo]
    rw [if_neg (fun hcon => hcon.2 rfl)]
    rw [show ([] : Str) ++ (if ([] : Str).isEmpty then ([] : Str) else sepDot) ++ trimChars s =
        trimChars s from by simp]
    have hrec := chunkGo_flat n rest hrest (trimChars s) []
      (fun c hc => hss.1 c (trimChars_subset s c hc))
      (by rw [trimChars_idem]; exact hss.2) (by simp)
    rw [show trimChars s ++ sepJoin [] = trimChars s from List.append_nil _] at hrec
    rw [hrec, trimChars_idem]
    simp

theorem sentencesOf_props (text : Str) :
    ∀ s ∈ sentencesOf text, (∀ c ∈ s, isSentenceDelim c = false) ∧ trimChars s ≠ [] := by
  intro s hs
  rw [sentencesOf, List.mem_filter] at hs
  refine ⟨splitDelims_delimFree_mem text s hs.1, ?_⟩
  have h2 := hs.2
  simp only [Bool.not_eq_true'] at h2
  intro hcon
  rw [hcon] at h2
  simp at h2

theorem sentences_joinSepDot (L : List Str) :
    (sentencesOf (joinSepDot L)).map trimChars =
      L.flatMap fun c => (sentencesOf c).map trimChars := by
  induction L with
  | nil => rfl
  | cons c L ih =>
    cases L with
    | nil => simp [joinSepDot]
    | cons d L2 =>
      rw [show joinSepDot (c :: d :: L2) = c ++ sepDot ++ joinSepDot (d :: L2) from rfl]
      rw [List.append_assoc,
        show sepDot ++ joinSepDot (d :: L2) = '.' :: (' ' :: joinSepDot (d :: L2)) from rfl]
      rw [sentencesOf_append_delim c _ '.' (by decide), List.map_append,
        sentencesOf_space_cons, ih]
      simp

/-- Claim C5: the chunker never splits a sentence across two chunks and
re-joining the chunks with the separator reproduces the input's sentence
sequence: concatenating the per-chunk sentence lists (all compared after
trimming, since the chunker normalizes the whitespace around sentences)
yields exactly the input's sentence list, and so does re-splitting the
`". "`-joined chunks.  A sentence longer than `maxSize` enters the buffer
whole, so it is never split. -/
theorem chunkText_preserves_sentences (text : Str) (n : Nat) :
    ((chunkText text n).flatMap fun c => (sentencesOf c).map trimChars) =
      (sentencesOf text).map trimChars ∧
    (sentencesOf (joinSepDot (chunkText text n))).map trimChars =
      (sentencesOf text).map trimChars := by
  have h1 := chunkGo_flat_nil n (sentencesOf text) (sentencesOf_props text)
  exact ⟨h1, by rw [sentences_joinSepDot]; exact h1⟩
